import Mathlib

/-!
Verification of the search-and-retrieval facade (src/search.py) against its
natural-language specification.  The Python source is shallowly embedded:
pure request-building code becomes Lean functions on a structured request
type, the Redis cache becomes explicit state passing with integer time,
the effectful orchestration is modelled by the trace of external calls a
method issues, and the Python builtins str/eval, restricted to the literal
values that flow through this program (None, booleans, ints, strings,
lists, dicts with string keys), become an executable printer and parser.
-/

namespace ChatterBox

/- Characters used by the Python literal printer and parser.  Quote,
backslash and braces are spelled via code points. -/

def squote : Char := Char.ofNat 39

def bslash : Char := Char.ofNat 92

def lbrack : Char := Char.ofNat 91

def rbrack : Char := Char.ofNat 93

def lbrace : Char := Char.ofNat 123

def rbrace : Char := Char.ofNat 125

def commaCh : Char := Char.ofNat 44

def spaceCh : Char := Char.ofNat 32

def colonCh : Char := Char.ofNat 58

def minusCh : Char := Char.ofNat 45

/-- Python values that occur in this program: the JSON-like results decoded
from the search backend and re-serialized into the Redis cache by
`cache_search_results` via `str`, and read back by `get_cached_results`
via `eval`.  Dict keys are strings, as in Elasticsearch `_source` bodies. -/
inductive PyVal where
  | none_ : PyVal
  | bool_ : Bool → PyVal
  | int_ : Int → PyVal
  | str_ : String → PyVal
  | list : List PyVal → PyVal
  | dict : List (String × PyVal) → PyVal

/- Decimal digits, as produced by the CPython `str` of an `int`. -/

def digitVal (c : Char) : Nat := c.toNat - 48

def charsToNat (cs : List Char) : Nat :=
  cs.foldl (fun a c => a * 10 + digitVal c) 0

/-- Decimal digit characters of a natural number, most significant first.
Structural recursion on fuel so that concrete instances reduce by `rfl`. -/
def natCharsAux : Nat → Nat → List Char
  | 0, _ => []
  | fuel + 1, n =>
    if n < 10 then [Nat.digitChar n]
    else natCharsAux fuel (n / 10) ++ [Nat.digitChar (n % 10)]

def natChars (n : Nat) : List Char := natCharsAux (n + 1) n

/-- Characters of the CPython decimal rendering of an integer. -/
def intChars (n : Int) : List Char :=
  if n < 0 then minusCh :: natChars n.natAbs else natChars n.toNat

/- The CPython `repr` of the values above.  Strings are rendered in the
single-quote form, escaping backslash and the quote character; lists and
dicts render as bracketed, comma-space separated sequences, exactly the
output of `str(results)` in `cache_search_results`. -/

def escapeChar (c : Char) : List Char :=
  if c = bslash then [bslash, bslash]
  else if c = squote then [bslash, squote]
  else [c]

def reprStrChars (s : String) : List Char :=
  squote :: (s.toList.map escapeChar).flatten ++ [squote]

def noneChars : List Char := [Char.ofNat 78, Char.ofNat 111, Char.ofNat 110, Char.ofNat 101]

def trueChars : List Char := [Char.ofNat 84, Char.ofNat 114, Char.ofNat 117, Char.ofNat 101]

def falseChars : List Char :=
  [Char.ofNat 70, Char.ofNat 97, Char.ofNat 108, Char.ofNat 115, Char.ofNat 101]

mutual

def reprChars : PyVal → List Char
  | .none_ => noneChars
  | .bool_ true => trueChars
  | .bool_ false => falseChars
  | .int_ n => intChars n
  | .str_ s => reprStrChars s
  | .list [] => [lbrack, rbrack]
  | .list (v :: vs) => lbrack :: elemsChars v vs
  | .dict [] => [lbrace, rbrace]
  | .dict (e :: es) => lbrace :: entsChars e es
termination_by v => sizeOf v
decreasing_by all_goals (simp_wf; try omega)

/-- Characters of a nonempty list tail of a `repr`: the elements joined by
comma-space, followed by the closing bracket. -/
def elemsChars : PyVal → List PyVal → List Char
  | v, [] => reprChars v ++ [rbrack]
  | v, w :: vs => reprChars v ++ [commaCh, spaceCh] ++ elemsChars w vs
termination_by v vs => sizeOf v + sizeOf vs
decreasing_by all_goals (simp_wf; try omega)

/-- Characters of a nonempty dict tail of a `repr`: `key: value` entries
joined by comma-space, followed by the closing brace. -/
def entsChars : (String × PyVal) → List (String × PyVal) → List Char
  | (k, v), [] => reprStrChars k ++ [colonCh, spaceCh] ++ reprChars v ++ [rbrace]
  | (k, v), e :: es =>
    reprStrChars k ++ [colonCh, spaceCh] ++ reprChars v ++ [commaCh, spaceCh] ++ entsChars e es
termination_by e es => sizeOf e + sizeOf es
decreasing_by all_goals (simp_wf; try omega)

end

/-- The CPython `str`/`repr` of a value, as written into Redis by
`cache_search_results`. -/
def reprPy (v : PyVal) : String := String.mk (reprChars v)

/- A recursive-descent parser for the literal grammar above, modelling the
behaviour of the CPython `eval` builtin on cached text: well-formed
literals evaluate to the corresponding value, anything else raises a
syntax error.  Recursion is on explicit fuel so that concrete instances
reduce by `rfl`. -/

/-- Drops `lit` from the front of `cs`, or fails. -/
def dropLeading : List Char → List Char → Option (List Char)
  | [], cs => some cs
  | _ :: _, [] => none
  | p :: ps, c :: cs => if c = p then dropLeading ps cs else none

/-- Parses the body of a single-quoted string up to and past the closing
quote, undoing the escapes `escapeChar` introduces. -/
def parseStrBody : List Char → Option (List Char × List Char)
  | [] => none
  | c :: rest =>
    if c = squote then some ([], rest)
    else if c = bslash then
      match rest with
      | [] => none
      | e :: rest2 =>
        match parseStrBody rest2 with
        | some (s, r) => some (e :: s, r)
        | none => none
    else
      match parseStrBody rest with
      | some (s, r) => some (c :: s, r)
      | none => none

/-- Splits off the maximal leading run of decimal digits. -/
def takeDigits : List Char → List Char × List Char
  | [] => ([], [])
  | c :: rest =>
    if c.isDigit then
      let (ds, r) := takeDigits rest
      (c :: ds, r)
    else ([], c :: rest)

mutual

/-- Parses one literal value, returning it with the unconsumed rest. -/
def parseVal : Nat → List Char → Option (PyVal × List Char)
  | 0, _ => none
  | fuel + 1, cs =>
    match dropLeading noneChars cs with
    | some rest => some (.none_, rest)
    | none =>
    match dropLeading trueChars cs with
    | some rest => some (.bool_ true, rest)
    | none =>
    match dropLeading falseChars cs with
    | some rest => some (.bool_ false, rest)
    | none =>
    match cs with
    | [] => none
    | c :: rest =>
      if c = squote then
        match parseStrBody rest with
        | some (s, r) => some (.str_ (String.mk s), r)
        | none => none
      else if c = lbrack then
        match rest with
        | [] => none
        | d :: rest2 =>
          if d = rbrack then some (.list [], rest2)
          else
            match parseElems fuel (d :: rest2) with
            | some (vs, r) => some (.list vs, r)
            | none => none
      else if c = lbrace then
        match rest with
        | [] => none
        | d :: rest2 =>
          if d = rbrace then some (.dict [], rest2)
          else
            match parseEnts fuel (d :: rest2) with
            | some (es, r) => some (.dict es, r)
            | none => none
      else if c = minusCh then
        match takeDigits rest with
        | ([], _) => none
        | (ds, r) => some (.int_ (-(charsToNat ds : Int)), r)
      else if c.isDigit then
        match takeDigits (c :: rest) with
        | ([], _) => none
        | (ds, r) => some (.int_ (charsToNat ds), r)
      else none

/-- Parses the elements of a nonempty list literal, consuming the closing
bracket. -/
def parseElems : Nat → List Char → Option (List PyVal × List Char)
  | 0, _ => none
  | fuel + 1, cs =>
    match parseVal fuel cs with
    | none => none
    | some (v, rest) =>
      match rest with
      | [] => none
      | r1 :: rest1 =>
        if r1 = rbrack then some ([v], rest1)
        else if r1 = commaCh then
          match rest1 with
          | [] => none
          | r2 :: rest2 =>
            if r2 = spaceCh then
              match parseElems fuel rest2 with
              | some (vs, r) => some (v :: vs, r)
              | none => none
            else none
        else none

/-- Parses the entries of a nonempty dict literal, consuming the closing
brace. -/
def parseEnts : Nat → List Char → Option (List (String × PyVal) × List Char)
  | 0, _ => none
  | fuel + 1, cs =>
    match cs with
    | [] => none
    | c :: rest =>
      if c = squote then
        match parseStrBody rest with
        | none => none
        | some (k, r0) =>
          match r0 with
          | c1 :: c2 :: r1 =>
            if c1 = colonCh ∧ c2 = spaceCh then
              match parseVal fuel r1 with
              | none => none
              | some (v, rest) =>
                match rest with
                | [] => none
                | r1 :: rest1 =>
                  if r1 = rbrace then some ([(String.mk k, v)], rest1)
                  else if r1 = commaCh then
                    match rest1 with
                    | [] => none
                    | r2 :: rest2 =>
                      if r2 = spaceCh then
                        match parseEnts fuel rest2 with
                        | some (es, r) => some ((String.mk k, v) :: es, r)
                        | none => none
                      else none
                  else none
            else none
          | _ => none
      else none

end

/-- The model of the CPython `eval` builtin as used by
`get_cached_results`: parse the cached text as one literal value with no
trailing garbage, or raise a `SyntaxError`. -/
def evalPy (s : String) : Except String PyVal :=
  match parseVal (s.toList.length + 1) s.toList with
  | some (v, []) => Except.ok v
  | some (_, _ :: _) => Except.error "SyntaxError"
  | none => Except.error "SyntaxError"

/- Fuel bookkeeping: how much fuel the parser needs to reconstruct a
value; bounded by the length of the printed form. -/

mutual

def sizePy : PyVal → Nat
  | .none_ => 1
  | .bool_ _ => 1
  | .int_ _ => 1
  | .str_ _ => 1
  | .list [] => 1
  | .list (v :: vs) => 1 + fuelElems v vs
  | .dict [] => 1
  | .dict (e :: es) => 1 + fuelEnts e es
termination_by v => sizeOf v
decreasing_by all_goals (simp_wf; try omega)

def fuelElems : PyVal → List PyVal → Nat
  | v, [] => 1 + sizePy v
  | v, w :: vs => 1 + sizePy v + fuelElems w vs
termination_by v vs => sizeOf v + sizeOf vs
decreasing_by all_goals (simp_wf; try omega)

def fuelEnts : (String × PyVal) → List (String × PyVal) → Nat
  | (_, v), [] => 1 + sizePy v
  | (_, v), e :: es => 1 + sizePy v + fuelEnts e es
termination_by e es => sizeOf e + sizeOf es
decreasing_by all_goals (simp_wf; try omega)

end

/- Decimal digit lemmas. -/

theorem isDigit_toNat {c : Char} (h : c.isDigit = true) :
    48 ≤ c.toNat ∧ c.toNat ≤ 57 := by
  simpa [Char.isDigit] using h

theorem digitChar_isDigit {d : Nat} (h : d < 10) : (Nat.digitChar d).isDigit = true := by
  interval_cases d <;> decide

theorem digitVal_digitChar {d : Nat} (h : d < 10) : digitVal (Nat.digitChar d) = d := by
  interval_cases d <;> decide

theorem charsToNat_append (xs : List Char) (c : Char) :
    charsToNat (xs ++ [c]) = 10 * charsToNat xs + digitVal c := by
  simp [charsToNat, List.foldl_append, Nat.mul_comm]

theorem natCharsAux_spec :
    ∀ fuel n, n < fuel →
      (∀ c ∈ natCharsAux fuel n, c.isDigit = true) ∧
        natCharsAux fuel n ≠ [] ∧ charsToNat (natCharsAux fuel n) = n := by
  intro fuel
  induction fuel with
  | zero => omega
  | succ fuel ih =>
    intro n hn
    by_cases h10 : n < 10
    · refine ⟨?_, ?_, ?_⟩ <;> simp [natCharsAux, h10, charsToNat]
      · exact digitChar_isDigit h10
      · simp [digitVal_digitChar h10]
    · have hdiv : n / 10 < fuel := by
        have := Nat.div_lt_self (by omega : 0 < n) (by omega : 1 < 10)
        omega
      obtain ⟨hd, hne, hval⟩ := ih (n / 10) hdiv
      refine ⟨?_, ?_, ?_⟩
      · intro c hc
        simp [natCharsAux, h10] at hc
        rcases hc with hc | hc
        · exact hd c hc
        · subst hc
          exact digitChar_isDigit (Nat.mod_lt n (by omega))
      · simp [natCharsAux, h10]
      · rw [natCharsAux, if_neg h10, charsToNat_append, hval,
          digitVal_digitChar (Nat.mod_lt n (by omega))]
        omega

theorem natChars_digits {n : Nat} : ∀ c ∈ natChars n, c.isDigit = true :=
  (natCharsAux_spec (n + 1) n (Nat.lt_succ_self n)).1

theorem natChars_ne_nil {n : Nat} : natChars n ≠ [] :=
  (natCharsAux_spec (n + 1) n (Nat.lt_succ_self n)).2.1

theorem charsToNat_natChars {n : Nat} : charsToNat (natChars n) = n :=
  (natCharsAux_spec (n + 1) n (Nat.lt_succ_self n)).2.2

/- Parser helper lemmas. -/

theorem dropLeading_self (p rest : List Char) : dropLeading p (p ++ rest) = some rest := by
  induction p with
  | nil => rfl
  | cons c cs ih => simp [dropLeading, ih]

theorem dropLeading_head_ne {p c : Char} (ps cs : List Char) (h : c ≠ p) :
    dropLeading (p :: ps) (c :: cs) = none := by
  simp [dropLeading, h]

theorem parseStrBody_round (s : List Char) (rest : List Char) :
    parseStrBody ((s.map escapeChar).flatten ++ squote :: rest) = some (s, rest) := by
  have h1 : ¬ bslash = squote := by decide
  have h2 : ¬ squote = bslash := by decide
  induction s with
  | nil => simp [parseStrBody.eq_def]
  | cons c cs ih =>
    by_cases hb : c = bslash
    · subst hb
      rw [List.map_cons, List.flatten_cons, escapeChar, if_pos rfl, List.cons_append,
        List.cons_append, parseStrBody.eq_def]
      simp only [if_neg h1, if_pos rfl]
      simp [ih]
    · by_cases hq : c = squote
      · subst hq
        rw [List.map_cons, List.flatten_cons, escapeChar, if_neg h2, if_pos rfl,
          List.cons_append, List.cons_append, parseStrBody.eq_def]
        simp only [if_neg h1, if_pos rfl]
        simp [ih]
      · rw [List.map_cons, List.flatten_cons, escapeChar, if_neg hb, if_neg hq,
          List.cons_append, parseStrBody.eq_def]
        simp [if_neg hb, if_neg hq, ih]

theorem takeDigits_exact {ds rest : List Char} (hds : ∀ c ∈ ds, c.isDigit = true)
    (hrest : ∀ c, rest.head? = some c → c.isDigit = false) :
    takeDigits (ds ++ rest) = (ds, rest) := by
  induction ds with
  | nil =>
    cases rest with
    | nil => rfl
    | cons c r =>
      have := hrest c rfl
      simp [takeDigits, this]
  | cons d ds ih =>
    have hd : d.isDigit = true := hds d (by simp)
    have : takeDigits (ds ++ rest) = (ds, rest) := ih fun c hc => hds c (by simp [hc])
    simp [takeDigits, hd, this]

/-- A digit character is none of the characters the parser dispatches on. -/
theorem digit_ne {c : Char} (h : c.isDigit = true) :
    c ≠ Char.ofNat 78 ∧ c ≠ Char.ofNat 84 ∧ c ≠ Char.ofNat 70 ∧ c ≠ squote ∧
      c ≠ lbrack ∧ c ≠ lbrace ∧ c ≠ minusCh ∧ c ≠ rbrack ∧ c ≠ rbrace := by
  have hb := isDigit_toNat h
  refine ⟨?_, ?_, ?_, ?_, ?_, ?_, ?_, ?_, ?_⟩ <;>
    (intro heq; subst heq; revert hb; decide)

theorem mk_toList (s : String) : String.mk s.toList = s := rfl

theorem reprChars_ne_nil (v : PyVal) : reprChars v ≠ [] := by
  cases v with
  | none_ => simp [reprChars, noneChars]
  | bool_ b => cases b <;> simp [reprChars, trueChars, falseChars]
  | int_ n =>
    simp only [reprChars, intChars]
    by_cases hn : n < 0
    · simp [hn]
    · simp [hn, natChars_ne_nil]
  | str_ s => simp [reprChars, reprStrChars]
  | list l => cases l <;> simp [reprChars]
  | dict l => cases l <;> simp [reprChars]

/-- The first character of a printed value is never a closing bracket. -/
theorem reprChars_head_ne_rbrack (v : PyVal) {d : Char} {t : List Char}
    (h : reprChars v = d :: t) : ¬ d = rbrack := by
  intro heq
  subst heq
  cases v with
  | none_ =>
    simp only [reprChars, noneChars] at h
    exact absurd (List.cons.inj h).1 (by decide)
  | bool_ b =>
    cases b <;> simp only [reprChars, trueChars, falseChars] at h <;>
      exact absurd (List.cons.inj h).1 (by decide)
  | int_ n =>
    simp only [reprChars, intChars] at h
    by_cases hn : n < 0
    · rw [if_pos hn] at h
      exact absurd (List.cons.inj h).1 (by decide)
    · rw [if_neg hn] at h
      have hdig : rbrack.isDigit = true := natChars_digits rbrack (by rw [h]; simp)
      exact absurd hdig (by decide)
  | str_ s =>
    simp only [reprChars, reprStrChars] at h
    exact absurd (List.cons.inj h).1 (by decide)
  | list l =>
    cases l <;> simp only [reprChars] at h <;>
      exact absurd (List.cons.inj h).1 (by decide)
  | dict l =>
    cases l <;> simp only [reprChars] at h <;>
      exact absurd (List.cons.inj h).1 (by decide)

/- One-step unfolding lemmas for the fuel-indexed parser. -/

theorem parseVal_succ (fuel : Nat) (cs : List Char) :
    parseVal (fuel + 1) cs =
      match dropLeading noneChars cs with
      | some rest => some (.none_, rest)
      | none =>
      match dropLeading trueChars cs with
      | some rest => some (.bool_ true, rest)
      | none =>
      match dropLeading falseChars cs with
      | some rest => some (.bool_ false, rest)
      | none =>
      match cs with
      | [] => none
      | c :: rest =>
        if c = squote then
          match parseStrBody rest with
          | some (s, r) => some (.str_ (String.mk s), r)
          | none => none
        else if c = lbrack then
          match rest with
          | [] => none
          | d :: rest2 =>
            if d = rbrack then some (.list [], rest2)
            else
              match parseElems fuel (d :: rest2) with
              | some (vs, r) => some (.list vs, r)
              | none => none
        else if c = lbrace then
          match rest with
          | [] => none
          | d :: rest2 =>
            if d = rbrace then some (.dict [], rest2)
            else
              match parseEnts fuel (d :: rest2) with
              | some (es, r) => some (.dict es, r)
              | none => none
        else if c = minusCh then
          match takeDigits rest with
          | ([], _) => none
          | (ds, r) => some (.int_ (-(charsToNat ds : Int)), r)
        else if c.isDigit then
          match takeDigits (c :: rest) with
          | ([], _) => none
          | (ds, r) => some (.int_ (charsToNat ds), r)
        else none := rfl

theorem parseElems_succ (fuel : Nat) (cs : List Char) :
    parseElems (fuel + 1) cs =
      match parseVal fuel cs with
      | none => none
      | some (v, rest) =>
        match rest with
        | [] => none
        | r1 :: rest1 =>
          if r1 = rbrack then some ([v], rest1)
          else if r1 = commaCh then
            match rest1 with
            | [] => none
            | r2 :: rest2 =>
              if r2 = spaceCh then
                match parseElems fuel rest2 with
                | some (vs, r) => some (v :: vs, r)
                | none => none
              else none
          else none := rfl

theorem parseEnts_succ (fuel : Nat) (cs : List Char) :
    parseEnts (fuel + 1) cs =
      match cs with
      | [] => none
      | c :: rest =>
        if c = squote then
          match parseStrBody rest with
          | none => none
          | some (k, r0) =>
            match r0 with
            | c1 :: c2 :: r1 =>
              if c1 = colonCh ∧ c2 = spaceCh then
                match parseVal fuel r1 with
                | none => none
                | some (v, rest) =>
                  match rest with
                  | [] => none
                  | r1 :: rest1 =>
                    if r1 = rbrace then some ([(String.mk k, v)], rest1)
                    else if r1 = commaCh then
                      match rest1 with
                      | [] => none
                      | r2 :: rest2 =>
                        if r2 = spaceCh then
                          match parseEnts fuel rest2 with
                          | some (es, r) => some ((String.mk k, v) :: es, r)
                          | none => none
                        else none
                    else none
              else none
            | _ => none
        else none := rfl

/- Parsing each printed atom back. -/

theorem prefixChecksFail (c : Char) (cs : List Char)
    (h1 : ¬ c = Char.ofNat 78) (h2 : ¬ c = Char.ofNat 84) (h3 : ¬ c = Char.ofNat 70) :
    dropLeading noneChars (c :: cs) = none ∧
      dropLeading trueChars (c :: cs) = none ∧
      dropLeading falseChars (c :: cs) = none := by
  simp only [noneChars, trueChars, falseChars]
  exact ⟨dropLeading_head_ne _ _ h1, dropLeading_head_ne _ _ h2, dropLeading_head_ne _ _ h3⟩

theorem parseVal_atom_none (fuel : Nat) (rest : List Char) :
    parseVal (fuel + 1) (noneChars ++ rest) = some (.none_, rest) := by
  rw [parseVal_succ]
  simp [dropLeading_self]

theorem parseVal_atom_true (fuel : Nat) (rest : List Char) :
    parseVal (fuel + 1) (trueChars ++ rest) = some (.bool_ true, rest) := by
  rw [parseVal_succ]
  have e1 : dropLeading noneChars (trueChars ++ rest) = none := by
    simp only [noneChars, trueChars, List.cons_append]
    exact dropLeading_head_ne _ _ (by decide)
  simp [e1, dropLeading_self]

theorem parseVal_atom_false (fuel : Nat) (rest : List Char) :
    parseVal (fuel + 1) (falseChars ++ rest) = some (.bool_ false, rest) := by
  rw [parseVal_succ]
  have e1 : dropLeading noneChars (falseChars ++ rest) = none := by
    simp only [noneChars, falseChars, List.cons_append]
    exact dropLeading_head_ne _ _ (by decide)
  have e2 : dropLeading trueChars (falseChars ++ rest) = none := by
    simp only [trueChars, falseChars, List.cons_append]
    exact dropLeading_head_ne _ _ (by decide)
  simp [e1, e2, dropLeading_self]

theorem parseVal_atom_str (fuel : Nat) (s : String) (rest : List Char) :
    parseVal (fuel + 1) (reprStrChars s ++ rest) = some (.str_ s, rest) := by
  rw [parseVal_succ]
  have hs : reprStrChars s ++ rest =
      squote :: ((s.toList.map escapeChar).flatten ++ squote :: rest) := by
    simp [reprStrChars]
  rw [hs]
  obtain ⟨e1, e2, e3⟩ :=
    prefixChecksFail squote ((s.toList.map escapeChar).flatten ++ squote :: rest)
      (by decide) (by decide) (by decide)
  simp only [String.toList] at e1 e2 e3
  simp [e1, e2, e3, parseStrBody_round, mk_toList, String.toList]

theorem parseVal_atom_int (fuel : Nat) (n : Int) (rest : List Char)
    (hrest : ∀ c, rest.head? = some c → c.isDigit = false) :
    parseVal (fuel + 1) (intChars n ++ rest) = some (.int_ n, rest) := by
  by_cases hn : n < 0
  · have hich : intChars n = minusCh :: natChars n.natAbs := by simp [intChars, hn]
    have ht : takeDigits (natChars n.natAbs ++ rest) = (natChars n.natAbs, rest) :=
      takeDigits_exact natChars_digits hrest
    obtain ⟨d, t, hdt⟩ : ∃ d t, natChars n.natAbs = d :: t := by
      cases hnc : natChars n.natAbs with
      | nil => exact absurd hnc natChars_ne_nil
      | cons d t => exact ⟨d, t, rfl⟩
    have hval : charsToNat (d :: t) = n.natAbs := by
      rw [← hdt]; exact charsToNat_natChars
    have hneg : -|n| = n := by rw [abs_of_neg hn, neg_neg]
    rw [hdt] at ht
    rw [List.cons_append] at ht
    rw [parseVal_succ, hich, hdt, List.cons_append, List.cons_append]
    obtain ⟨e1, e2, e3⟩ :=
      prefixChecksFail minusCh (d :: (t ++ rest)) (by decide) (by decide) (by decide)
    simp [e1, e2, e3, (by decide : ¬ minusCh = squote), (by decide : ¬ minusCh = lbrack),
      (by decide : ¬ minusCh = lbrace), ht, hval, hneg]
  · have hich : intChars n = natChars n.toNat := by simp [intChars, hn]
    obtain ⟨d, t, hdt⟩ : ∃ d t, natChars n.toNat = d :: t := by
      cases hnc : natChars n.toNat with
      | nil => exact absurd hnc natChars_ne_nil
      | cons d t => exact ⟨d, t, rfl⟩
    have hdig : ∀ c ∈ d :: t, c.isDigit = true := by
      rw [← hdt]; exact natChars_digits
    have hd : d.isDigit = true := hdig d (by simp)
    obtain ⟨q1, q2, q3, q4, q5, q6, q7, -, -⟩ := digit_ne hd
    have ht : takeDigits ((d :: t) ++ rest) = (d :: t, rest) :=
      takeDigits_exact hdig hrest
    have hval : charsToNat (d :: t) = n.toNat := by
      rw [← hdt]; exact charsToNat_natChars
    have hpos : ((n.toNat : Int)) = n := by omega
    rw [parseVal_succ, hich, hdt, List.cons_append]
    obtain ⟨e1, e2, e3⟩ := prefixChecksFail d (t ++ rest) q1 q2 q3
    rw [List.cons_append] at ht
    simp [e1, e2, e3, q4, q5, q6, q7, hd, ht, hval, hpos]

/- The parser fuel a value needs is bounded by the length of its printed
form, and is always positive. -/

mutual

theorem sizePy_le : ∀ v : PyVal, sizePy v ≤ (reprChars v).length
  | .none_ => by simp [sizePy, reprChars, noneChars]
  | .bool_ true => by simp [sizePy, reprChars, trueChars]
  | .bool_ false => by simp [sizePy, reprChars, falseChars]
  | .int_ n => by
    have h : reprChars (.int_ n) ≠ [] := reprChars_ne_nil (.int_ n)
    have h1 : 1 ≤ (reprChars (.int_ n)).length := by
      cases hc : reprChars (.int_ n) with
      | nil => exact absurd hc h
      | cons a b => simp
    simpa [sizePy] using h1
  | .str_ s => by simp [sizePy, reprChars, reprStrChars]
  | .list [] => by simp [sizePy, reprChars]
  | .list (v :: vs) => by
    have h := fuelElems_le v vs
    simp only [sizePy, reprChars, List.length_cons]
    omega
  | .dict [] => by simp [sizePy, reprChars]
  | .dict (e :: es) => by
    have h := fuelEnts_le e es
    simp only [sizePy, reprChars, List.length_cons]
    omega
termination_by v => sizeOf v
decreasing_by all_goals (simp_wf; try omega)

theorem fuelElems_le : ∀ (v : PyVal) (vs : List PyVal), fuelElems v vs ≤ (elemsChars v vs).length
  | v, [] => by
    have h := sizePy_le v
    simp only [fuelElems, elemsChars, List.length_append, List.length_cons, List.length_nil]
    omega
  | v, w :: vs => by
    have h1 := sizePy_le v
    have h2 := fuelElems_le w vs
    simp only [fuelElems, elemsChars, List.length_append, List.length_cons, List.length_nil]
    omega
termination_by v vs => sizeOf v + sizeOf vs
decreasing_by all_goals (simp_wf; try omega)

theorem fuelEnts_le :
    ∀ (e : String × PyVal) (es : List (String × PyVal)), fuelEnts e es ≤ (entsChars e es).length
  | (k, v), [] => by
    have h := sizePy_le v
    simp only [fuelEnts, entsChars, reprStrChars, List.length_append, List.length_cons,
      List.length_nil]
    omega
  | (k, v), e :: es => by
    have h1 := sizePy_le v
    have h2 := fuelEnts_le e es
    simp only [fuelEnts, entsChars, reprStrChars, List.length_append, List.length_cons,
      List.length_nil]
    omega
termination_by e es => sizeOf e + sizeOf es
decreasing_by all_goals (simp_wf; try omega)

end

theorem sizePy_pos (v : PyVal) : 1 ≤ sizePy v := by
  cases v with
  | none_ => simp [sizePy]
  | bool_ b => cases b <;> simp [sizePy]
  | int_ n => simp [sizePy]
  | str_ s => simp [sizePy]
  | list l => cases l <;> simp [sizePy]
  | dict l => cases l <;> simp [sizePy]

theorem fuelElems_pos (v : PyVal) (vs : List PyVal) : 1 ≤ fuelElems v vs := by
  cases vs <;> (simp [fuelElems]; try omega)

theorem fuelEnts_pos (e : String × PyVal) (es : List (String × PyVal)) : 1 ≤ fuelEnts e es := by
  obtain ⟨k, v⟩ := e
  cases es <;> (simp [fuelEnts]; try omega)

/-- The characters that may legally follow a printed value inside a list or
dict, or at top level: anything that does not extend a decimal literal. -/
def TailOk (rest : List Char) : Prop :=
  ∀ c, rest.head? = some c → c.isDigit = false

theorem tailOk_nil : TailOk [] := by
  intro c hc
  simp at hc

theorem tailOk_cons {c : Char} (h : c.isDigit = false) (t : List Char) : TailOk (c :: t) := by
  intro d hd
  rw [List.head?_cons] at hd
  cases hd
  exact h

theorem elemsChars_decomp (v : PyVal) (vs : List PyVal) :
    ∃ X, elemsChars v vs = reprChars v ++ X := by
  cases vs with
  | nil => exact ⟨[rbrack], by rw [elemsChars]⟩
  | cons w ws =>
    exact ⟨[commaCh, spaceCh] ++ elemsChars w ws, by rw [elemsChars, List.append_assoc]⟩

theorem entsChars_head (e : String × PyVal) (es : List (String × PyVal)) :
    ∃ X, entsChars e es = squote :: X := by
  obtain ⟨k, v⟩ := e
  cases es with
  | nil =>
    exact ⟨(k.toList.map escapeChar).flatten ++
      squote :: (colonCh :: spaceCh :: (reprChars v ++ [rbrace])),
      by rw [entsChars, reprStrChars]; simp⟩
  | cons e2 es2 =>
    exact ⟨(k.toList.map escapeChar).flatten ++
      squote :: (colonCh :: spaceCh ::
        (reprChars v ++ (commaCh :: spaceCh :: entsChars e2 es2))),
      by rw [entsChars, reprStrChars]; simp⟩

/-- Round trip of the literal printer and parser: parsing the printed form
of a value, followed by any tail that does not extend a decimal literal,
returns exactly that value.  Joint statement for values, list tails and
dict tails, by induction on fuel. -/
theorem parseRound : ∀ fuel : Nat,
    (∀ (v : PyVal) (rest : List Char), sizePy v ≤ fuel → TailOk rest →
      parseVal fuel (reprChars v ++ rest) = some (v, rest)) ∧
    (∀ (v : PyVal) (vs : List PyVal) (rest : List Char), fuelElems v vs ≤ fuel → TailOk rest →
      parseElems fuel (elemsChars v vs ++ rest) = some (v :: vs, rest)) ∧
    (∀ (ke : String × PyVal) (es : List (String × PyVal)) (rest : List Char),
      fuelEnts ke es ≤ fuel → TailOk rest →
      parseEnts fuel (entsChars ke es ++ rest) = some (ke :: es, rest)) := by
  intro fuel
  induction fuel with
  | zero =>
    refine ⟨fun v rest hsz _ => ?_, fun v vs rest hsz _ => ?_, fun ke es rest hsz _ => ?_⟩
    · exact absurd hsz (by have := sizePy_pos v; omega)
    · exact absurd hsz (by have := fuelElems_pos v vs; omega)
    · exact absurd hsz (by have := fuelEnts_pos ke es; omega)
  | succ fuel ih =>
    obtain ⟨ihV, ihE, ihD⟩ := ih
    refine ⟨?_, ?_, ?_⟩
    · intro v rest hsz hrest
      cases v with
      | none_ => simpa [reprChars] using parseVal_atom_none fuel rest
      | bool_ b =>
        cases b
        · simpa [reprChars] using parseVal_atom_false fuel rest
        · simpa [reprChars] using parseVal_atom_true fuel rest
      | int_ n => simpa [reprChars] using parseVal_atom_int fuel n rest hrest
      | str_ s => simpa [reprChars] using parseVal_atom_str fuel s rest
      | list l =>
        cases l with
        | nil =>
          rw [show reprChars (.list []) ++ rest = lbrack :: (rbrack :: rest) from by
            simp [reprChars]]
          rw [parseVal_succ]
          obtain ⟨e1, e2, e3⟩ :=
            prefixChecksFail lbrack (rbrack :: rest) (by decide) (by decide) (by decide)
          simp [e1, e2, e3, (by decide : ¬ lbrack = squote)]
        | cons v vs =>
          have hfe : fuelElems v vs ≤ fuel := by
            simp only [sizePy] at hsz
            omega
          have hres := ihE v vs rest hfe hrest
          obtain ⟨d0, t0, h0⟩ : ∃ d0 t0, reprChars v = d0 :: t0 := by
            cases hc : reprChars v with
            | nil => exact absurd hc (reprChars_ne_nil v)
            | cons a b => exact ⟨a, b, rfl⟩
          obtain ⟨X, hX⟩ := elemsChars_decomp v vs
          have hcons : elemsChars v vs ++ rest = d0 :: (t0 ++ (X ++ rest)) := by
            rw [hX, h0]
            simp
          have hdne : ¬ d0 = rbrack := reprChars_head_ne_rbrack v h0
          rw [show reprChars (.list (v :: vs)) ++ rest = lbrack :: (elemsChars v vs ++ rest)
            from by simp [reprChars]]
          rw [hcons, parseVal_succ]
          obtain ⟨e1, e2, e3⟩ :=
            prefixChecksFail lbrack (d0 :: (t0 ++ (X ++ rest))) (by decide) (by decide) (by decide)
          rw [hcons] at hres
          simp [e1, e2, e3, (by decide : ¬ lbrack = squote), hdne, hres]
      | dict l =>
        cases l with
        | nil =>
          rw [show reprChars (.dict []) ++ rest = lbrace :: (rbrace :: rest) from by
            simp [reprChars]]
          rw [parseVal_succ]
          obtain ⟨e1, e2, e3⟩ :=
            prefixChecksFail lbrace (rbrace :: rest) (by decide) (by decide) (by decide)
          simp [e1, e2, e3, (by decide : ¬ lbrace = squote), (by decide : ¬ lbrace = lbrack)]
        | cons e es =>
          have hfe : fuelEnts e es ≤ fuel := by
            simp only [sizePy] at hsz
            omega
          have hres := ihD e es rest hfe hrest
          obtain ⟨X, hX⟩ := entsChars_head e es
          have hcons : entsChars e es ++ rest = squote :: (X ++ rest) := by
            rw [hX]
            simp
          rw [show reprChars (.dict (e :: es)) ++ rest = lbrace :: (entsChars e es ++ rest)
            from by simp [reprChars]]
          rw [hcons, parseVal_succ]
          obtain ⟨e1, e2, e3⟩ :=
            prefixChecksFail lbrace (squote :: (X ++ rest)) (by decide) (by decide) (by decide)
          rw [hcons] at hres
          simp [e1, e2, e3, (by decide : ¬ lbrace = squote), (by decide : ¬ lbrace = lbrack),
            (by decide : ¬ squote = rbrace), hres]
    · intro v vs rest hsz hrest
      cases vs with
      | nil =>
        have hs : sizePy v ≤ fuel := by
          simp only [fuelElems] at hsz
          omega
        have hv := ihV v (rbrack :: rest) hs (tailOk_cons (by decide) rest)
        rw [parseElems_succ]
        rw [show elemsChars v [] ++ rest = reprChars v ++ (rbrack :: rest) from by
          simp [elemsChars]]
        simp [hv]
      | cons w ws =>
        have hs : sizePy v ≤ fuel := by
          simp only [fuelElems] at hsz
          omega
        have hw : fuelElems w ws ≤ fuel := by
          simp only [fuelElems] at hsz
          omega
        have hv := ihV v (commaCh :: spaceCh :: (elemsChars w ws ++ rest)) hs
          (tailOk_cons (by decide) _)
        have hws := ihE w ws rest hw hrest
        rw [parseElems_succ]
        rw [show elemsChars v (w :: ws) ++ rest =
            reprChars v ++ (commaCh :: spaceCh :: (elemsChars w ws ++ rest)) from by
          simp [elemsChars]]
        simp [hv, (by decide : ¬ commaCh = rbrack), hws]
    · intro ke es rest hsz hrest
      obtain ⟨k, v⟩ := ke
      cases es with
      | nil =>
        have hs : sizePy v ≤ fuel := by
          simp only [fuelEnts] at hsz
          omega
        have hv := ihV v (rbrace :: rest) hs (tailOk_cons (by decide) rest)
        rw [parseEnts_succ]
        rw [show entsChars (k, v) [] ++ rest =
            squote :: ((k.toList.map escapeChar).flatten ++
              squote :: (colonCh :: spaceCh :: (reprChars v ++ (rbrace :: rest)))) from by
          simp [entsChars, reprStrChars]]
        simp [parseStrBody_round, hv, mk_toList]
      | cons e2 es2 =>
        have hs : sizePy v ≤ fuel := by
          simp only [fuelEnts] at hsz
          omega
        have hw : fuelEnts e2 es2 ≤ fuel := by
          simp only [fuelEnts] at hsz
          omega
        have hv := ihV v (commaCh :: spaceCh :: (entsChars e2 es2 ++ rest)) hs
          (tailOk_cons (by decide) _)
        have hes := ihD e2 es2 rest hw hrest
        rw [parseEnts_succ]
        rw [show entsChars (k, v) (e2 :: es2) ++ rest =
            squote :: ((k.toList.map escapeChar).flatten ++
              squote :: (colonCh :: spaceCh ::
                (reprChars v ++ (commaCh :: spaceCh :: (entsChars e2 es2 ++ rest))))) from by
          simp [entsChars, reprStrChars]]
        simp [parseStrBody_round, hv, (by decide : ¬ commaCh = rbrace), hes, mk_toList]

/-- The serialization used by the cache round-trips exactly through the
model of `eval`. -/
theorem evalPy_reprPy (v : PyVal) : evalPy (reprPy v) = Except.ok v := by
  have hlen : sizePy v ≤ (reprChars v).length + 1 :=
    le_trans (sizePy_le v) (Nat.le_succ _)
  have h := (parseRound ((reprChars v).length + 1)).1 v [] hlen tailOk_nil
  rw [List.append_nil] at h
  simp only [evalPy]
  rw [show (reprPy v).toList = reprChars v from rfl, h]

/-! ## The embedding of src/search.py

`SearchEngine` holds three external collaborators: an Elasticsearch
client, a Redis client and a `TfidfVectorizer`.  The request bodies the
methods build are embedded as structures mirroring the Python dict
literals; the external calls a method makes are recorded as a trace of
effects; the Redis store is explicit state with integer time. -/

/-- One clause of an Elasticsearch bool query as built by this code:
a full-text `match` clause or an exact `term` clause. -/
inductive Clause where
  | matchText : String → String → Clause
  | term : String → String → Clause
deriving DecidableEq

/-- The body built by `search_messages`: a bool query with one match
clause in `must`, an optional `filter` array (the key is absent when the
`filters` argument is `None` or empty, mirroring `if filters:`), a sort
specification and a size. -/
structure MessagesBody where
  must : List Clause
  filter : Option (List Clause)
  sort : List (String × String)
  size : Nat
deriving DecidableEq

def search_messages_body (query : String) (filters : Option (List (String × String))) :
    MessagesBody :=
  { must := [Clause.matchText "content" query]
    filter :=
      match filters with
      | none => none
      | some fs => if fs.isEmpty then none else some (fs.map fun p => Clause.term p.1 p.2)
    sort := [("timestamp", "desc")]
    size := 50 }

/-- The filter clauses effectively present in a messages body: the content
of the `filter` key, or none when the key is absent. -/
def MessagesBody.filterClauses (b : MessagesBody) : List Clause := b.filter.getD []

/-- The body built by `search_rooms`: a bool query whose `must` array
always contains the lexical match on `name` and the `term` clause on
`members`. -/
structure RoomsBody where
  must : List Clause
deriving DecidableEq

def search_rooms_body (query : String) (user_id : String) : RoomsBody :=
  { must := [Clause.matchText "name" query, Clause.term "members" user_id] }

/-- The body built by `semantic_search`: a script_score query whose script
is `cosineSimilarity(params.query_vector, doc[content_vector]) + 1.0` with
the freshly fitted query vector as parameter, and size 20.  The vector is
recorded as the fitted vocabulary with raw term counts (the idf factor is
1 on a single-document corpus and l2 normalization changes neither the
vocabulary nor the dimension). -/
structure SemanticBody where
  queryVector : List (String × Nat)
  size : Nat
deriving DecidableEq

/-- External calls a `SearchEngine` method can make, in order. -/
inductive Effect where
  | esMessages : MessagesBody → Effect
  | esRooms : RoomsBody → Effect
  | esSemantic : SemanticBody → Effect
  | cacheGet : String → Effect
  | cacheSet : String → Nat → String → Effect
  | vectorizeFit : List String → Effect
deriving DecidableEq

/-- Errors a call could surface to its caller.  The code contains no
validation, so `invalidIntent` is never produced. -/
inductive SearchError where
  | invalidIntent : SearchError
  | valueError : String → SearchError
deriving DecidableEq

def Effect.isBackendSearch : Effect → Bool
  | .esMessages _ => true
  | .esRooms _ => true
  | .esSemantic _ => true
  | _ => false

def Effect.isCacheOp : Effect → Bool
  | .cacheGet _ => true
  | .cacheSet _ _ _ => true
  | _ => false

/-- `search_messages`: builds the body, performs exactly one backend
search and returns its hits; it touches neither the cache nor the
vectorizer and performs no validation. -/
def search_messages_run (backend : MessagesBody → List PyVal) (query : String)
    (filters : Option (List (String × String))) :
    Except SearchError (List PyVal) × List Effect :=
  (Except.ok (backend (search_messages_body query filters)),
    [Effect.esMessages (search_messages_body query filters)])

/-- A room document as indexed by `index_room`. -/
structure Room where
  roomId : String
  name : String
  description : String
  members : List String
  metadata : List (String × PyVal)

/-- Backend evaluation of one clause against a room document.  The
full-text match behaviour is backend-internal, so it is a parameter
`matchPred`; a `term` clause on the `members` array is exact membership. -/
def evalRoomClause (matchPred : String → String → Bool) (r : Room) : Clause → Bool
  | .matchText f q =>
    if f = "name" then matchPred r.name q
    else if f = "description" then matchPred r.description q
    else false
  | .term f v =>
    if f = "members" then r.members.contains v
    else if f = "roomId" then r.roomId == v
    else false

/-- Backend evaluation of a rooms bool query: a document is a hit when
every `must` clause holds. -/
def esRoomsSearch (matchPred : String → String → Bool) (index : List Room)
    (body : RoomsBody) : List Room :=
  index.filter fun r => body.must.all (evalRoomClause matchPred r)

/-- `search_rooms`: builds the body with the mandatory members term clause
and performs one backend search. -/
def search_rooms_run (matchPred : String → String → Bool) (index : List Room)
    (query : String) (user_id : String) : List Room × List Effect :=
  (esRoomsSearch matchPred index (search_rooms_body query user_id),
    [Effect.esRooms (search_rooms_body query user_id)])

/-! ### The Redis-backed result cache -/

/-- The Redis store: each key maps to a value and its expiry deadline. -/
abbrev RedisState := String → Option (String × Nat)

/-- `redis.setex(key, ttl, value)` at integer time `now`. -/
def setex (st : RedisState) (now : Nat) (key : String) (ttl : Nat) (value : String) :
    RedisState :=
  fun k => if k = key then some (value, now + ttl) else st k

/-- `redis.get(key)` at integer time `now`: the value while the deadline
has not passed, nothing afterwards. -/
def redisGet (st : RedisState) (now : Nat) (key : String) : Option String :=
  match st key with
  | some (v, deadline) => if now < deadline then some v else none
  | none => none

/-- The cache key derivation used by both cache methods: the string
`search:` followed by the raw query string, and nothing else. -/
def cacheKey (query : String) : String := "search:" ++ query

/-- `cache_search_results(query, results)`: stores `str(results)` under
the derived key with a fresh TTL of 300 seconds. -/
def cache_search_results (st : RedisState) (now : Nat) (query : String)
    (results : List PyVal) : RedisState :=
  setex st now (cacheKey query) 300 (reprPy (.list results))

/-- `get_cached_results(query)`: reads the key and returns
`eval(cached) if cached else None`.  An empty cached string is falsy and
yields `None`; a present value is handed to `eval`, whose failure
propagates to the caller as an uncaught exception (`Except.error`). -/
def get_cached_results (st : RedisState) (now : Nat) (query : String) :
    Except String (Option PyVal) :=
  match redisGet st now (cacheKey query) with
  | some cached => if cached = "" then Except.ok none else (evalPy cached).map some
  | none => Except.ok none

/-! ### The vectorizer -/

/-- A word character in the default sklearn token pattern. -/
def isWordChar (c : Char) : Bool := c.isAlphanum || c = Char.ofNat 95

def tokensAux : List Char → List Char → List (List Char)
  | [], acc => if acc.isEmpty then [] else [acc.reverse]
  | c :: cs, acc =>
    if isWordChar c then tokensAux cs (c :: acc)
    else if acc.isEmpty then tokensAux cs [] else acc.reverse :: tokensAux cs []

/-- The default `TfidfVectorizer` analyzer: lowercase, then tokens are the
maximal runs of word characters of length at least two. -/
def tokenize (s : String) : List String :=
  ((tokensAux (s.toList.map Char.toLower) []).filter fun t => 2 ≤ t.length).map String.mk

def lexLe : List Char → List Char → Bool
  | [], _ => true
  | _ :: _, [] => false
  | a :: as, b :: bs =>
    if a.toNat < b.toNat then true
    else if b.toNat < a.toNat then false
    else lexLe as bs

def strLe (a b : String) : Bool := lexLe a.toList b.toList

def insertSorted (s : String) : List String → List String
  | [] => [s]
  | t :: ts => if strLe s t then s :: t :: ts else t :: insertSorted s ts

def sortStrings : List String → List String
  | [] => []
  | s :: ss => insertSorted s (sortStrings ss)

/-- The vocabulary `fit_transform` infers from its corpus: the sorted set
of distinct tokens.  In `semantic_search` the corpus is the single query
string, so the vocabulary is a function of the query. -/
def vocabulary (q : String) : List String := sortStrings (tokenize q).dedup

/-- The single row of `fit_transform([query]).toarray()`: one entry per
vocabulary term, carrying its raw count. -/
def fitTransformSingle (q : String) : List (String × Nat) :=
  (vocabulary q).map fun t => (t, (tokenize q).count t)

def semantic_search_body (query : String) : SemanticBody :=
  { queryVector := fitTransformSingle query, size := 20 }

/-- `semantic_search`: refits the shared vectorizer on the one-element
corpus `[query]`, then performs one backend search; the `context`
argument is never read. -/
def semantic_search_trace (query : String) (_context : String) : List Effect :=
  [Effect.vectorizeFit [query], Effect.esSemantic (semantic_search_body query)]

theorem reprPy_list_ne_empty (rs : List PyVal) : reprPy (.list rs) ≠ "" := by
  unfold reprPy
  obtain ⟨d, t, h⟩ : ∃ d t, reprChars (.list rs) = d :: t := by
    cases rs <;> (rw [reprChars]; exact ⟨_, _, rfl⟩)
  rw [h]
  intro hk
  exact absurd (congrArg String.data hk) (by simp)

/-! ## The claims -/

/-- Claim C1, behaviour at the failing input: with malformed bytes cached
under the derived key, `get_cached_results` propagates the `eval` failure
to the caller as an uncaught exception — a crash, not a cache miss. -/
theorem get_cached_results_crashes_on_malformed :
    get_cached_results (fun k => if k = "search:q" then some ("][", 300) else none) 0 "q"
        = Except.error "SyntaxError" ∧
      (Except.error "SyntaxError" : Except String (Option PyVal)) ≠ Except.ok none :=
  ⟨rfl, by simp⟩

/-- Claim C2: every room returned by `search_rooms` has the requesting
user id in its members set, for every backend lexical-match behaviour,
index, query and requester — the `term` clause on `members` is built
unconditionally into the `must` array. -/
theorem search_rooms_members_invariant
    (matchPred : String → String → Bool) (index : List Room)
    (query user_id : String) (r : Room)
    (hr : r ∈ (search_rooms_run matchPred index query user_id).1) :
    user_id ∈ r.members := by
  simp only [search_rooms_run, esRoomsSearch, search_rooms_body, List.mem_filter,
    List.all_cons, List.all_nil, Bool.and_true, Bool.and_eq_true] at hr
  have hterm := hr.2.2
  simp only [evalRoomClause, if_pos rfl] at hterm
  simpa using hterm

/-- Witness for C2 at a concrete index. -/
theorem search_rooms_members_invariant_witness :
    "u1" ∈ (Room.mk "r1" "general" "" ["u1", "u2"] []).members :=
  search_rooms_members_invariant (fun _ _ => true)
    [Room.mk "r1" "general" "" ["u1", "u2"] []] "general" "u1"
    (Room.mk "r1" "general" "" ["u1", "u2"] [])
    (by rw [show (search_rooms_run (fun _ _ => true)
        [Room.mk "r1" "general" "" ["u1", "u2"] []] "general" "u1").1
          = [Room.mk "r1" "general" "" ["u1", "u2"] []] from rfl]
        exact List.mem_singleton.mpr rfl)

/-- Claim C3, behaviour of the key derivation: the key both cache methods
use is the `search:` prefix plus the raw query string and nothing else —
filters and search domain are not inputs to the derivation, so logical
queries that differ only in filters or domain share one key. -/
theorem cacheKey_only_query :
    (∀ q, cacheKey q = "search:" ++ q) ∧ cacheKey "x" = "search:x" :=
  ⟨fun _ => rfl, rfl⟩

/-- Claim C4: a get immediately after a put returns exactly the stored
result list (same documents, same field values and types, same order)
at any time strictly before the fixed 300-second TTL expires, and
returns a miss at any time from expiry on. -/
theorem cache_roundtrip (st : RedisState) (now t1 t2 : Nat) (query : String)
    (results : List PyVal) (h1 : t1 < now + 300) (h2 : now + 300 ≤ t2) :
    get_cached_results (cache_search_results st now query results) t1 query
        = Except.ok (some (.list results)) ∧
      get_cached_results (cache_search_results st now query results) t2 query
        = Except.ok none := by
  constructor
  · simp [get_cached_results, cache_search_results, setex, redisGet, h1,
      reprPy_list_ne_empty results, evalPy_reprPy, Except.map]
  · have hge : ¬ t2 < now + 300 := by omega
    simp [get_cached_results, cache_search_results, setex, redisGet, hge]

/-- Witness for C4 at a concrete store, query and result set. -/
theorem cache_roundtrip_witness :
    (0 < 0 + 300 ∧ 0 + 300 ≤ 300) ∧
      get_cached_results
          (cache_search_results (fun _ => none) 0 "q" [.dict [("content", .str_ "hi")]]) 0 "q"
          = Except.ok (some (.list [.dict [("content", .str_ "hi")]])) ∧
        get_cached_results
            (cache_search_results (fun _ => none) 0 "q" [.dict [("content", .str_ "hi")]]) 300 "q"
          = Except.ok none :=
  ⟨⟨by omega, by omega⟩,
    cache_roundtrip (fun _ => none) 0 0 300 "q" [.dict [("content", .str_ "hi")]]
      (by omega) (by omega)⟩

/-- Claim C5, behaviour of the code: `search_messages` issues exactly one
backend call and zero cache operations on every invocation — the cache is
never consulted — so two sequential identical searches issue two backend
calls in total, not one. -/
theorem search_messages_no_cache_integration
    (backend : MessagesBody → List PyVal) (query : String)
    (filters : Option (List (String × String))) :
    ((search_messages_run backend query filters).2.countP Effect.isBackendSearch = 1 ∧
      (search_messages_run backend query filters).2.countP Effect.isCacheOp = 0) ∧
    (((search_messages_run backend query filters).2 ++
        (search_messages_run backend query filters).2).countP Effect.isBackendSearch = 2 ∧
      ((search_messages_run backend query filters).2 ++
        (search_messages_run backend query filters).2).countP Effect.isCacheOp = 0) := by
  simp [search_messages_run, List.countP_cons, Effect.isBackendSearch, Effect.isCacheOp]

/-- Claim C6: the message-search request has exactly one match clause on
the content field with the raw query string, one term (exact-match)
filter clause per (field, value) pair, a sort by timestamp descending,
and size 50. -/
theorem search_messages_request_shape (query : String) (fs : List (String × String)) :
    (search_messages_body query (some fs)).must = [Clause.matchText "content" query] ∧
      (search_messages_body query (some fs)).filterClauses
          = fs.map (fun p => Clause.term p.1 p.2) ∧
      (search_messages_body query (some fs)).sort = [("timestamp", "desc")] ∧
      (search_messages_body query (some fs)).size = 50 := by
  refine ⟨rfl, ?_, rfl, rfl⟩
  cases fs with
  | nil => rfl
  | cons p ps => rfl

/-- Claim C7, counterexample: with query and context both empty, message
search does not fail with InvalidIntent before I/O — it succeeds and
issues the backend call with the empty-query body. -/
theorem search_messages_empty_query_counterexample :
    (search_messages_run (fun _ => []) "" none).1 = Except.ok [] ∧
      (search_messages_run (fun _ => []) "" none).2
        = [Effect.esMessages (search_messages_body "" none)] ∧
      (search_messages_run (fun _ => []) "" none).1 ≠ Except.error SearchError.invalidIntent :=
  ⟨rfl, rfl, by simp [search_messages_run]⟩

/-- Claim C7 as amended: request building performs no validation at all —
for every query (the empty one included) and filters, `search_messages`
returns the backend hits and issues the backend call, and no
InvalidIntent rejection exists anywhere in the code. -/
theorem search_messages_no_validation
    (backend : MessagesBody → List PyVal) (query : String)
    (filters : Option (List (String × String))) :
    (search_messages_run backend query filters).1
        = Except.ok (backend (search_messages_body query filters)) ∧
      (search_messages_run backend query filters).2
        = [Effect.esMessages (search_messages_body query filters)] :=
  ⟨rfl, rfl⟩

/-- Claim C8, behaviour of the code: `semantic_search` refits the shared
vectorizer on the single-query corpus on every call, so the fitted
vocabulary is a function of the query — two requests for different texts
produce vectors of different dimensions (2 versus 1 here), hence not
comparable in one vector space. -/
theorem vectorizer_refit_per_query :
    (∀ q ctx, (semantic_search_trace q ctx).head? = some (Effect.vectorizeFit [q])) ∧
      vocabulary "hello world" = ["hello", "world"] ∧
      vocabulary "foo" = ["foo"] ∧
      (fitTransformSingle "hello world").length = 2 ∧
      (fitTransformSingle "foo").length = 1 :=
  ⟨fun _ _ => rfl, rfl, rfl, rfl, rfl⟩

/-- Claim C10: a missing filters argument and an empty filter mapping
build the identical backend request. -/
theorem search_messages_none_eq_empty (query : String) :
    search_messages_body query none = search_messages_body query (some []) := rfl

/-! ## The semantic relevance score (claim C9)

The script the `semantic_search` body installs is
`cosineSimilarity(params.query_vector, doc[content_vector]) + 1.0`,
evaluated by the backend on real vectors.  It is modelled here over the
reals: the dot product of two vectors of possibly different lengths is
over their common prefix, the norm is the square root of the self dot
product, and a zero denominator makes the quotient zero (score 1). -/

noncomputable def dotp (x y : List ℝ) : ℝ :=
  ∑ i ∈ Finset.range (min x.length y.length), x.getD i 0 * y.getD i 0

noncomputable def norm2 (x : List ℝ) : ℝ := Real.sqrt (dotp x x)

noncomputable def cosineSimilarity (x y : List ℝ) : ℝ := dotp x y / (norm2 x * norm2 y)

/-- The per-document score of the `script_score` query built by
`semantic_search`: cosine similarity of the query vector against the
stored document vector, offset by one. -/
noncomputable def semanticScore (qv dv : List ℝ) : ℝ := cosineSimilarity qv dv + 1.0

theorem dotp_self_eq (x : List ℝ) :
    dotp x x = ∑ i ∈ Finset.range x.length, x.getD i 0 ^ 2 := by
  simp [dotp, Nat.min_self, sq]

theorem dotp_self_nonneg (x : List ℝ) : 0 ≤ dotp x x := by
  rw [dotp_self_eq]
  exact Finset.sum_nonneg fun i _ => sq_nonneg _

theorem norm2_nonneg (x : List ℝ) : 0 ≤ norm2 x := Real.sqrt_nonneg _

/-- Cauchy-Schwarz for the list dot product. -/
theorem abs_dotp_le (x y : List ℝ) : |dotp x y| ≤ norm2 x * norm2 y := by
  have key : dotp x y ^ 2 ≤ dotp x x * dotp y y := by
    have cs := Finset.sum_mul_sq_le_sq_mul_sq (Finset.range (min x.length y.length))
      (fun i => x.getD i 0) (fun i => y.getD i 0)
    have hx : (∑ i ∈ Finset.range (min x.length y.length), x.getD i 0 ^ 2) ≤ dotp x x := by
      rw [dotp_self_eq]
      refine Finset.sum_le_sum_of_subset_of_nonneg
        (Finset.range_subset.mpr (Nat.min_le_left _ _)) ?_
      intro i _ _
      exact sq_nonneg _
    have hy : (∑ i ∈ Finset.range (min x.length y.length), y.getD i 0 ^ 2) ≤ dotp y y := by
      rw [dotp_self_eq]
      refine Finset.sum_le_sum_of_subset_of_nonneg
        (Finset.range_subset.mpr (Nat.min_le_right _ _)) ?_
      intro i _ _
      exact sq_nonneg _
    have hxnn : (0:ℝ) ≤ ∑ i ∈ Finset.range (min x.length y.length), x.getD i 0 ^ 2 :=
      Finset.sum_nonneg fun i _ => sq_nonneg _
    calc dotp x y ^ 2
        ≤ (∑ i ∈ Finset.range (min x.length y.length), x.getD i 0 ^ 2) *
            ∑ i ∈ Finset.range (min x.length y.length), y.getD i 0 ^ 2 := cs
      _ ≤ dotp x x * dotp y y :=
          mul_le_mul hx hy (Finset.sum_nonneg fun i _ => sq_nonneg _)
            (le_trans hxnn hx)
  have h1 : |dotp x y| = Real.sqrt (dotp x y ^ 2) := (Real.sqrt_sq_eq_abs _).symm
  rw [h1, norm2, norm2, ← Real.sqrt_mul (dotp_self_nonneg x)]
  exact Real.sqrt_le_sqrt key

/-- Claim C9: every relevance score the semantic-search script can
produce lies in the closed interval from 0 to 2. -/
theorem semanticScore_range (qv dv : List ℝ) :
    0 ≤ semanticScore qv dv ∧ semanticScore qv dv ≤ 2 := by
  have hcos : |cosineSimilarity qv dv| ≤ 1 := by
    unfold cosineSimilarity
    rcases eq_or_lt_of_le (mul_nonneg (norm2_nonneg qv) (norm2_nonneg dv)) with h0 | hpos
    · rw [← h0, div_zero]
      norm_num
    · rw [abs_div, abs_of_pos hpos, div_le_one hpos]
      exact abs_dotp_le qv dv
  obtain ⟨hlo, hhi⟩ := abs_le.mp hcos
  unfold semanticScore
  constructor <;> linarith

end ChatterBox
